import Mathlib

/-!
Shallow embedding of `src/main.cpp` of the All-Colors repository: the
growth engine that fills a canvas with a palette of distinct colors,
placing each color at the frontier position of least color distance to
its already-placed neighbours.

Machine integers of the source (`unsigned char` channels, `int` position
components) are modelled as `ℕ` with explicit `% 256` where the source
converts to `unsigned char`, and as `ℤ`.  `double` is modelled as `ℝ`.
The C++ standard library's `std::shuffle` and `std::sort` have
implementation-defined element orders; they are modelled as parameters
constrained by their documented contracts (a permutation, respectively a
sorted permutation).
-/

/-- `typedef Vec<Channel, 3> Color` — a BGR color (index 0 is blue); a
channel (`typedef unsigned char Channel`) is a natural number below 256. -/
structure Color where
  b : ℕ
  g : ℕ
  r : ℕ
deriving DecidableEq

/-- `typedef pair<PosComponent, PosComponent> Pos` with `PosComponent = int`. -/
abbrev Pos := ℤ × ℤ

/-- `Channel invalidColor = 0` — the sentinel channel value. -/
def invalidColor : ℕ := 0

/-- The all-zero color that `Scalar_<Channel>(invalidColor)` fills the canvas
with: every channel is `invalidColor`. -/
def sentinelColor : Color := ⟨invalidColor, invalidColor, invalidColor⟩

/-- `std::pair`'s `operator<`: lexicographic order on `Pos`, the key order of
`std::set<Pos>`. -/
def posLE (p q : Pos) : Prop := p.1 < q.1 ∨ (p.1 = q.1 ∧ p.2 ≤ q.2)

instance : DecidableRel posLE := fun p q => by
  unfold posLE; infer_instance

instance : IsTrans Pos posLE where
  trans := by
    rintro a b c (h₁ | ⟨h₁, h₁'⟩) (h₂ | ⟨h₂, h₂'⟩) <;> unfold posLE <;> omega

instance : IsAntisymm Pos posLE where
  antisymm := by
    rintro ⟨a1, a2⟩ ⟨b1, b2⟩ (h₁ | ⟨h₁, h₁'⟩) (h₂ | ⟨h₂, h₂'⟩) <;>
      simp_all <;> omega

instance : IsTotal Pos posLE where
  total := by
    rintro ⟨a1, a2⟩ ⟨b1, b2⟩; unfold posLE; simp; omega

/-- The model of `cv::Mat` as used by the engine: fixed dimensions and a total
pixel function.  `pix x y` is the color that `image.at<Color>(y, x)` reads. -/
structure Mat where
  cols : ℤ
  rows : ℤ
  pix : ℤ → ℤ → Color

/-- `SetPixel(image, x, y, color)`: `image.at<Color>(y, x) = color`. -/
def SetPixel (m : Mat) (x y : ℤ) (c : Color) : Mat :=
  { m with pix := fun a b => if a = x ∧ b = y then c else m.pix a b }

/-- `GetPixel(image, x, y)`. -/
def GetPixel (m : Mat) (x y : ℤ) : Color := m.pix x y

/-- `GetPixel(image, pos)`. -/
def GetPixelP (m : Mat) (p : Pos) : Color := GetPixel m p.1 p.2

/-- `const PosComponent spread = 1`. -/
def spread : ℤ := 1

/-- The bounds test of the source (`x < 0 || x >= image.cols || y < 0 ||
y >= image.rows`, negated). -/
def inBoundsB (m : Mat) (p : Pos) : Bool :=
  !(p.1 < 0 || p.1 ≥ m.cols || p.2 < 0 || p.2 ≥ m.rows)

/-- The unset test the source applies to a cell in both
`GetFreeNeighbours` and `ColorPosDiff`: only channel 0 (blue) is compared
against `invalidColor`. -/
def cellUnset (c : Color) : Bool := c.b == invalidColor

/-- The list of positions the nested loops `for nx = x-spread .. x+spread,
for ny = y-spread .. y+spread` visit, in visit order (center included). -/
def blockList (p : Pos) : List Pos :=
  (List.range (2 * spread + 1).toNat).flatMap fun (i : ℕ) =>
    (List.range (2 * spread + 1).toNat).map fun (j : ℕ) =>
      (p.1 - spread + (i : ℤ), p.2 - spread + (j : ℤ))

/-- The `copy_if` predicate of `GetFreeNeighbours`: in bounds and the pixel's
channel 0 equals `invalidColor`. -/
def freeCell (m : Mat) (p : Pos) : Bool :=
  inBoundsB m p && cellUnset (GetPixelP m p)

/-- `GetFreeNeighbours(image, pos)`: the 3×3 block around `pos` filtered to
in-bounds cells whose channel 0 is the sentinel, collected into a set. -/
def GetFreeNeighbours (m : Mat) (p : Pos) : Finset Pos :=
  ((blockList p).filter (freeCell m)).toFinset

/-- `ColorDiff(bgr1, bgr2)`: Euclidean distance over the three channels. -/
noncomputable def ColorDiff (bgr1 bgr2 : Color) : ℝ :=
  let db : ℝ := (bgr2.b : ℝ) - (bgr1.b : ℝ)
  let dg : ℝ := (bgr2.g : ℝ) - (bgr1.g : ℝ)
  let dr : ℝ := (bgr2.r : ℝ) - (bgr1.r : ℝ)
  Real.sqrt (db * db + dg * dg + dr * dr)

/-- The cells `ColorPosDiff` accumulates over: in-bounds cells of the 3×3
block whose channel 0 differs from the sentinel. -/
def countedCells (m : Mat) (p : Pos) : List Pos :=
  (blockList p).filter fun q => inBoundsB m q && !cellUnset (GetPixelP m q)

/-- `ColorPosDiff(image, pos, color)`: summed `ColorDiff` against every
counted neighbour, divided by `max(colorCount, 1)` squared. -/
noncomputable def ColorPosDiff (m : Mat) (p : Pos) (c : Color) : ℝ :=
  let diff : ℝ := ((countedCells m p).map fun q => ColorDiff c (GetPixelP m q)).sum
  let colorCount : ℕ := (countedCells m p).length
  let divisor : ℝ := (max colorCount 1 : ℕ)
  diff / (divisor * divisor)

/-- `bgr2hsv(bgr)` — hue/saturation/value triple; returns `(0, 0, 0)` when the
channel span is zero. -/
noncomputable def bgr2hsv (bgr : Color) : ℝ × ℝ × ℝ :=
  let bc := bgr.b
  let gc := bgr.g
  let rc := bgr.r
  let b : ℝ := (bc : ℝ) / 255
  let g : ℝ := (gc : ℝ) / 255
  let r : ℝ := (rc : ℝ) / 255
  let maxc : ℕ := max (max rc gc) bc
  let v : ℝ := max (max r g) b
  let divisor : ℝ := v - min (min r g) b
  if divisor = 0 then (0, 0, 0)
  else
    let s : ℝ := if v = 0 then 0 else divisor / v
    let h : ℝ :=
      if maxc = rc then 60 * (g - b) / divisor
      else if maxc = gc then 120 + 60 * (b - r) / divisor
      else if maxc = bc then 240 + 60 * (r - g) / divisor
      else 0
    let h' : ℝ := if h < 0 then h + 360 else h
    (h', s, v)

/-- The hue component the palette sort comparator reads (`hsv[0]`). -/
noncomputable def hueOf (c : Color) : ℝ := (bgr2hsv c).1

/-- The palette sort comparator `bgr2hsv(bgr1)[0] < bgr2hsv(bgr2)[0]`. -/
def hueLt (c1 c2 : Color) : Prop := hueOf c1 < hueOf c2

/-- `std::min_element` with comparator `rp1.first < rp2.first`: the first
element no later element is strictly below; `none` models the past-the-end
iterator returned on an empty range. -/
noncomputable def minElement : List (ℝ × Pos) → Option (ℝ × Pos)
  | [] => none
  | x :: xs => some (xs.foldl (fun a b => if b.1 < a.1 then b else a) x)

/-- The iteration order of `std::set<Pos>`: ascending `posLE`. -/
def sortedPositions (s : Finset Pos) : List Pos := s.sort posLE

/-- The `(cost, position)` list `FindBestPos` builds by `transform` over the
set's iteration order. -/
noncomputable def ratedOf (m : Mat) (nextPositions : Finset Pos) (c : Color) :
    List (ℝ × Pos) :=
  (sortedPositions nextPositions).map fun p => (ColorPosDiff m p c, p)

/-- A model of one `std::shuffle` call at element type `α`: a function from
list and generator state to permuted list and advanced generator state.  The
standard only promises the result is a permutation of the input. -/
def ShuffleFn (G : Type) (α : Type) := List α → G → List α × G

/-- The `std::shuffle` contract: the output list is a permutation of the
input. -/
def ShufflePerm {G α : Type} (sh : ShuffleFn G α) : Prop :=
  ∀ l g, ((sh l g).1).Perm l

/-- `FindBestPos(image, nextPositions, color, g)`: rate every set element,
shuffle the rated pairs, take `min_element` by cost.  The advanced generator
state is returned explicitly (the source mutates `g` by reference). -/
noncomputable def FindBestPos {G : Type} (sR : ShuffleFn G (ℝ × Pos)) (m : Mat)
    (nextPositions : Finset Pos) (c : Color) (g : G) : Option Pos × G :=
  let rated := ratedOf m nextPositions c
  let sres := sR rated g
  ((minElement sres.1).map Prod.snd, sres.2)

/-- The engine state of `main`'s loop: the canvas, the frontier set
`nextPositions`, the remaining palette `colors` (drained from the back), and
the generator state. -/
structure EState (G : Type) where
  image : Mat
  nextPositions : Finset Pos
  colors : List Color
  gen : G

/-- The loop guard `!colors.empty() && !nextPositions.empty()`. -/
def Running {G : Type} (s : EState G) : Prop :=
  s.colors ≠ [] ∧ s.nextPositions.Nonempty

/-- One loop body execution: pop the back color, find the best position,
erase it from the frontier, paint it, and insert the new free neighbours.
Also returns the `(position, color)` placement made.  When `min_element`
is applied to an empty range the source dereferences an end iterator
(undefined behaviour); that branch is modelled as making no placement. -/
noncomputable def stepOut {G : Type} (sR : ShuffleFn G (ℝ × Pos))
    (s : EState G) : EState G × Option (Pos × Color) :=
  match s.colors.getLast? with
  | none => (s, none)
  | some color =>
    let colors' := s.colors.dropLast
    let fb := FindBestPos sR s.image s.nextPositions color s.gen
    match fb.1 with
    | none => ({ s with colors := colors', gen := fb.2 }, none)
    | some pos =>
      let nextPositions' := s.nextPositions.erase pos
      let image' := SetPixel s.image pos.1 pos.2 color
      let newFreePos := GetFreeNeighbours image' pos
      ({ image := image', nextPositions := nextPositions' ∪ newFreePos,
         colors := colors', gen := fb.2 }, some (pos, color))

/-- One loop iteration as a relation: the guard holds and the state advances
by the loop body. -/
def Step {G : Type} (sR : ShuffleFn G (ℝ × Pos)) (s s' : EState G) : Prop :=
  Running s ∧ s' = (stepOut sR s).1

/-- States reachable from `s` by zero or more loop iterations. -/
def Reachable {G : Type} (sR : ShuffleFn G (ℝ × Pos)) :
    EState G → EState G → Prop :=
  Relation.ReflTransGen (Step sR)

/-- The whole `while` loop from a given state: the final state and the list
of placements, in placement order. -/
noncomputable def run {G : Type} (sR : ShuffleFn G (ℝ × Pos)) (s : EState G) :
    EState G × List (Pos × Color) :=
  if h : s.colors ≠ [] ∧ s.nextPositions.Nonempty then
    let so := stepOut sR s
    let rest := run sR so.1
    (rest.1, so.2.toList ++ rest.2)
  else (s, [])
termination_by s.colors.length
decreasing_by
  obtain ⟨c, hc⟩ := List.getLast?_isSome.2 h.1 |> Option.isSome_iff_exists.1
  have hlen := List.length_pos.2 h.1
  unfold stepOut
  rw [hc]
  rcases hfb : (FindBestPos sR s.image s.nextPositions c s.gen).1 with _ | pos <;>
    simp [hfb, List.length_dropLast] <;>
    omega

/-- `int colValues = 64`. -/
def colValues : ℕ := 64

/-- `int colMult = 4`. -/
def colMult : ℕ := 4

/-- One palette entry `Color(colMult*b, colMult*g/2, colMult*r/2)`; the
`int → unsigned char` conversion reduces modulo 256. -/
def mkPaletteColor (b g r : ℕ) : Color :=
  ⟨colMult * b % 256, colMult * g / 2 % 256, colMult * r / 2 % 256⟩

/-- The triple loop of `main` that fills the `colors` vector:
`b` from 1 below `colValues`, `g` and `r` from 1 below `2*colValues`. -/
def paletteColors : List Color :=
  (List.range' 1 (colValues - 1)).flatMap fun b =>
    (List.range' 1 (2 * colValues - 1)).flatMap fun g =>
      (List.range' 1 (2 * colValues - 1)).map fun r => mkPaletteColor b g r

/-- A model of one `std::sort` call on colors: only the contract below is
known about the element order it produces. -/
def SortFn := List Color → List Color

/-- The `std::sort` postcondition for the hue comparator: the output is a
permutation of the input, sorted for the strict comparator (no earlier
element compares greater). -/
def SortContract (l l' : List Color) : Prop :=
  l'.Perm l ∧ l'.Pairwise fun a b => ¬hueLt b a

/-- The canvas `Mat(rows, cols, ImageType, Scalar_<Channel>(invalidColor))`:
every pixel starts as the all-zero sentinel. -/
def allSentinelMat (cols rows : ℤ) : Mat :=
  ⟨cols, rows, fun _ _ => sentinelColor⟩

/-- `PosComponent plusLength = 5` in `Init`. -/
def plusLength : ℤ := 5

/-- The positions `Init` inserts for one seed: a horizontal arm and a
vertical arm of half-length `plusLength` through the seed. -/
def plusShape (p : Pos) : Finset Pos :=
  (((List.range (2 * plusLength + 1).toNat).map fun (i : ℕ) =>
      ((p.1 - plusLength + (i : ℤ), p.2) : Pos)) ++
    ((List.range (2 * plusLength + 1).toNat).map fun (j : ℕ) =>
      ((p.1, p.2 - plusLength + (j : ℤ)) : Pos))).toFinset

/-- The frontier `Init` returns in the numeric-seed modes: the union of the
plus shapes over all seed positions. -/
def initFrontier (seeds : Finset Pos) : Finset Pos :=
  seeds.biUnion plusShape

/-- The initial engine state `main` enters the loop with, given the palette
order `colors` produced by the shuffle-then-sort pipeline. -/
def initState {G : Type} (m : Mat) (nextPositions : Finset Pos)
    (colors : List Color) (g : G) : EState G :=
  ⟨m, nextPositions, colors, g⟩

/-- Everything `main` does that affects placements, from `Init`'s outputs on:
shuffle the palette with the generator seeded from the constant 1, sort it by
hue, and run the growth loop.  `rd` models the `random_device rd` that `main`
declares; it is never read. -/
noncomputable def mainRun {G : Type} (sC : ShuffleFn G Color)
    (sortFn : SortFn) (sR : ShuffleFn G (ℝ × Pos)) (m : Mat)
    (nextPositions : Finset Pos) (rd : ℕ) (gSeeded : G) :
    EState G × List (Pos × Color) :=
  let shuffleRes := sC paletteColors gSeeded
  let colors := sortFn shuffleRes.1
  run sR (initState m nextPositions colors shuffleRes.2)

/-- Modelled from the spec (§4.3, claim C4's reading): the neighbor
expansion of the seed positions — every in-bounds position within Chebyshev
distance `spread` of at least one seed that is unset on the canvas. -/
def specSeedExpansion (m : Mat) (seeds : Finset Pos) : Finset Pos :=
  seeds.biUnion fun s => GetFreeNeighbours m s

/-- `mel` is the first cost-minimal element of `l`: no element of `l` has
smaller cost, and `mel` occurs at a position before which every element has
strictly greater cost (ties are broken by first occurrence). -/
def IsFirstMin (l : List (ℝ × Pos)) (mel : ℝ × Pos) : Prop :=
  (∀ x ∈ l, mel.1 ≤ x.1) ∧
    ∃ l₁ l₂, l = l₁ ++ mel :: l₂ ∧ ∀ x ∈ l₁, mel.1 < x.1

/-- Modelled from the spec (§4.4, claim C2's reading): the in-bounds,
non-sentinel cells within Chebyshev distance `spread` of a position. -/
def specChebCells (m : Mat) (p : Pos) : Finset Pos :=
  ((Finset.Icc (p.1 - spread) (p.1 + spread)) ×ˢ
      (Finset.Icc (p.2 - spread) (p.2 + spread))).filter fun q =>
    (0 ≤ q.1 ∧ q.1 < m.cols ∧ 0 ≤ q.2 ∧ q.2 < m.rows) ∧
      GetPixelP m q ≠ sentinelColor

/-- Every frontier position is unset (channel 0 sentinel) on the canvas. -/
def FrontierFree {G : Type} (s : EState G) : Prop :=
  ∀ q ∈ s.nextPositions, cellUnset (GetPixelP s.image q) = true

/-- Every remaining palette color has a non-sentinel channel 0. -/
def ColorsGood {G : Type} (s : EState G) : Prop :=
  ∀ c ∈ s.colors, c.b ≠ invalidColor

/-- Every canvas cell is either the untouched sentinel or has a non-sentinel
channel 0 (cells only ever hold the sentinel or a placed color). -/
def CellsGood {G : Type} (s : EState G) : Prop :=
  ∀ p : Pos, GetPixelP s.image p = sentinelColor ∨
    (GetPixelP s.image p).b ≠ invalidColor

/-- The combined state invariant the growth loop preserves. -/
def EngineInv {G : Type} (s : EState G) : Prop :=
  FrontierFree s ∧ ColorsGood s ∧ CellsGood s

/-- `l'` is a hue-stable reorder of `l`: for every hue band, the colors of
that band appear in `l'` in the same order as in `l` (the standard
characterization of a stable reorder). -/
def StableByHue (l l' : List Color) : Prop :=
  ∀ a : Color, l'.filter (fun c => decide (hueOf c = hueOf a)) =
    l.filter (fun c => decide (hueOf c = hueOf a))

/-- The identity shuffle on rated pairs: a concrete instance of the
`std::shuffle` contract, used to instantiate the engine theorems. -/
def idShuffleR : ShuffleFn Unit (ℝ × Pos) := fun l g => (l, g)

/-- The identity shuffle on colors. -/
def idShuffleC : ShuffleFn Unit Color := fun l g => (l, g)

theorem stepOut_colors_length {G : Type} (sR : ShuffleFn G (ℝ × Pos))
    (s : EState G) (h : s.colors ≠ []) :
    ((stepOut sR s).1).colors.length + 1 = s.colors.length := by
  obtain ⟨c, hc⟩ := List.getLast?_isSome.2 h |> Option.isSome_iff_exists.1
  have hlen := List.length_pos.2 h
  unfold stepOut
  rw [hc]
  rcases hfb : (FindBestPos sR s.image s.nextPositions c s.gen).1 with _ | pos <;>
    simp [hfb, List.length_dropLast] <;>
    omega

theorem run_unfold {G : Type} (sR : ShuffleFn G (ℝ × Pos)) (s : EState G) :
    run sR s =
      if s.colors ≠ [] ∧ s.nextPositions.Nonempty then
        ((run sR (stepOut sR s).1).1,
          ((stepOut sR s).2).toList ++ (run sR (stepOut sR s).1).2)
      else (s, []) := by
  rw [run]
  split <;> simp

theorem mkPaletteColor_channels {b g r : ℕ} (hb : b < 64) (hg : g < 128)
    (hr : r < 128) :
    (mkPaletteColor b g r).b = 4 * b ∧ (mkPaletteColor b g r).g = 2 * g ∧
      (mkPaletteColor b g r).r = 2 * r := by
  refine ⟨?_, ?_, ?_⟩
  · show 4 * b % 256 = 4 * b
    omega
  · show 4 * g / 2 % 256 = 2 * g
    omega
  · show 4 * r / 2 % 256 = 2 * r
    omega

theorem mkPaletteColor_inj {b₁ g₁ r₁ b₂ g₂ r₂ : ℕ}
    (hb₁ : b₁ < 64) (hg₁ : g₁ < 128) (hr₁ : r₁ < 128)
    (hb₂ : b₂ < 64) (hg₂ : g₂ < 128) (hr₂ : r₂ < 128)
    (h : mkPaletteColor b₁ g₁ r₁ = mkPaletteColor b₂ g₂ r₂) :
    b₁ = b₂ ∧ g₁ = g₂ ∧ r₁ = r₂ := by
  obtain ⟨e₁, e₂, e₃⟩ := mkPaletteColor_channels hb₁ hg₁ hr₁
  obtain ⟨f₁, f₂, f₃⟩ := mkPaletteColor_channels hb₂ hg₂ hr₂
  rw [h] at e₁ e₂ e₃
  rw [f₁] at e₁
  rw [f₂] at e₂
  rw [f₃] at e₃
  omega

theorem mem_paletteColors {c : Color} :
    c ∈ paletteColors ↔
      ∃ b g r, (1 ≤ b ∧ b < 64) ∧ (1 ≤ g ∧ g < 128) ∧ (1 ≤ r ∧ r < 128) ∧
        c = mkPaletteColor b g r := by
  unfold paletteColors colValues
  simp only [List.mem_flatMap, List.mem_map, List.mem_range'_1]
  constructor
  · rintro ⟨b, hb, g, hg, r, hr, rfl⟩
    exact ⟨b, g, r, by omega, by omega, by omega, rfl⟩
  · rintro ⟨b, g, r, hb, hg, hr, rfl⟩
    exact ⟨b, by omega, g, by omega, r, by omega, rfl⟩

theorem paletteColors_nodup : paletteColors.Nodup := by
  unfold paletteColors colValues
  rw [List.nodup_flatMap]
  refine ⟨fun b hb => ?_, ?_⟩
  · rw [List.mem_range'_1] at hb
    rw [List.nodup_flatMap]
    refine ⟨fun g hg => ?_, ?_⟩
    · rw [List.mem_range'_1] at hg
      refine List.Nodup.map_on ?_ (List.nodup_range' ..)
      intro r₁ hr₁ r₂ hr₂ h
      rw [List.mem_range'_1] at hr₁ hr₂
      exact (mkPaletteColor_inj (by omega) (by omega) (by omega) (by omega)
        (by omega) (by omega) h).2.2
    · refine List.Pairwise.imp_of_mem ?_ ((List.nodup_range' ..).imp (by tauto))
      intro g₁ g₂ hg₁ hg₂ hne c hc₁ hc₂
      rw [List.mem_range'_1] at hg₁ hg₂
      rw [List.mem_map] at hc₁ hc₂
      obtain ⟨r₁, hr₁, rfl⟩ := hc₁
      obtain ⟨r₂, hr₂, h⟩ := hc₂
      rw [List.mem_range'_1] at hr₁ hr₂
      exact hne (mkPaletteColor_inj (by omega) (by omega) (by omega) (by omega)
        (by omega) (by omega) h.symm).2.1
  · refine List.Pairwise.imp_of_mem ?_ ((List.nodup_range' ..).imp (by tauto))
    intro b₁ b₂ hb₁ hb₂ hne c hc₁ hc₂
    rw [List.mem_range'_1] at hb₁ hb₂
    simp only [List.mem_flatMap, List.mem_map, List.mem_range'_1] at hc₁ hc₂
    obtain ⟨g₁, hg₁, r₁, hr₁, rfl⟩ := hc₁
    obtain ⟨g₂, hg₂, r₂, hr₂, h⟩ := hc₂
    exact hne (mkPaletteColor_inj (by omega) (by omega) (by omega) (by omega)
      (by omega) (by omega) h.symm).1

theorem paletteColors_channels_pos {c : Color} (hc : c ∈ paletteColors) :
    4 ≤ c.b ∧ 2 ≤ c.g ∧ 2 ≤ c.r := by
  obtain ⟨b, g, r, hb, hg, hr, rfl⟩ := mem_paletteColors.1 hc
  obtain ⟨e₁, e₂, e₃⟩ :=
    mkPaletteColor_channels (b := b) (g := g) (r := r) (by omega) (by omega)
      (by omega)
  rw [e₁, e₂, e₃]
  omega


/-- C9: the palette builder's generated sequence is pairwise distinct, never
equals the sentinel color, and every generated color has all three channels
non-zero. -/
theorem c9_palette_distinct_nonzero :
    paletteColors.Nodup ∧
      (∀ c ∈ paletteColors, c ≠ sentinelColor) ∧
      (∀ c ∈ paletteColors, c.b ≠ 0 ∧ c.g ≠ 0 ∧ c.r ≠ 0) := by
  refine ⟨paletteColors_nodup, ?_, ?_⟩
  · intro c hc
    obtain ⟨hb, hg, hr⟩ := paletteColors_channels_pos hc
    intro he
    rw [he] at hb
    simp [sentinelColor, invalidColor] at hb
  · intro c hc
    obtain ⟨hb, hg, hr⟩ := paletteColors_channels_pos hc
    omega

theorem c9_witness :
    mkPaletteColor 1 2 2 ∈ paletteColors ∧
      mkPaletteColor 1 2 2 ≠ sentinelColor ∧
      (mkPaletteColor 1 2 2).b ≠ 0 := by
  have hmem : mkPaletteColor 1 2 2 ∈ paletteColors :=
    mem_paletteColors.2 ⟨1, 2, 2, by omega, by omega, by omega, rfl⟩
  exact ⟨hmem, c9_palette_distinct_nonzero.2.1 _ hmem,
    (c9_palette_distinct_nonzero.2.2 _ hmem).1⟩

theorem mem_blockList {p q : Pos} :
    q ∈ blockList p ↔
      p.1 - 1 ≤ q.1 ∧ q.1 ≤ p.1 + 1 ∧ p.2 - 1 ≤ q.2 ∧ q.2 ≤ p.2 + 1 := by
  unfold blockList spread
  simp only [List.mem_flatMap, List.mem_map, List.mem_range]
  constructor
  · rintro ⟨i, hi, j, hj, h⟩
    have h₁ : p.1 - 1 + (i : ℤ) = q.1 := congrArg Prod.fst h
    have h₂ : p.2 - 1 + (j : ℤ) = q.2 := congrArg Prod.snd h
    omega
  · rintro ⟨h₁, h₂, h₃, h₄⟩
    refine ⟨(q.1 - p.1 + 1).toNat, by omega, (q.2 - p.2 + 1).toNat, by omega, ?_⟩
    rw [Prod.ext_iff]
    refine ⟨?_, ?_⟩
    · show p.1 - 1 + ((q.1 - p.1 + 1).toNat : ℤ) = q.1
      omega
    · show p.2 - 1 + ((q.2 - p.2 + 1).toNat : ℤ) = q.2
      omega

theorem blockList_nodup (p : Pos) : (blockList p).Nodup := by
  unfold blockList
  rw [List.nodup_flatMap]
  constructor
  · intro i hi
    refine List.Nodup.map_on (l := List.range (2 * spread + 1).toNat) ?_
      (List.nodup_range _)
    intro j₁ hj₁ j₂ hj₂ h
    have h₂ : ((j₁ : ℤ)) = (j₂ : ℤ) := by
      have := congrArg Prod.snd h
      simpa using this
    omega
  · refine List.Pairwise.imp_of_mem ?_ ((List.nodup_range _).imp (by tauto))
    intro i₁ i₂ hi₁ hi₂ hne q hq₁ hq₂
    rw [List.mem_map] at hq₁ hq₂
    obtain ⟨j₁, hj₁, rfl⟩ := hq₁
    obtain ⟨j₂, hj₂, h⟩ := hq₂
    have h₁ : p.1 - spread + ((i₂ : ℕ) : ℤ) = p.1 - spread + ((i₁ : ℕ) : ℤ) := by
      have := congrArg Prod.fst h
      simpa using this
    exact hne (by omega)

theorem mem_countedCells {m : Mat} {p q : Pos} :
    q ∈ countedCells m p ↔
      q ∈ blockList p ∧ inBoundsB m q = true ∧
        cellUnset (GetPixelP m q) = false := by
  unfold countedCells
  rw [List.mem_filter]
  simp [Bool.and_eq_true, Bool.not_eq_true']

theorem countedCells_nodup (m : Mat) (p : Pos) : (countedCells m p).Nodup :=
  (blockList_nodup p).filter _

theorem inBoundsB_iff {m : Mat} {q : Pos} :
    inBoundsB m q = true ↔ 0 ≤ q.1 ∧ q.1 < m.cols ∧ 0 ≤ q.2 ∧ q.2 < m.rows := by
  unfold inBoundsB
  simp
  omega

theorem countedCells_toFinset {m : Mat} {p : Pos}
    (hwf : ∀ q : Pos,
      cellUnset (GetPixelP m q) = true ↔ GetPixelP m q = sentinelColor) :
    (countedCells m p).toFinset = specChebCells m p := by
  ext q
  rw [List.mem_toFinset, mem_countedCells, mem_blockList]
  unfold specChebCells
  rw [Finset.mem_filter, Finset.mem_product, Finset.mem_Icc, Finset.mem_Icc,
    inBoundsB_iff]
  have hq := hwf q
  unfold spread
  constructor
  · rintro ⟨hb, hib, hcu⟩
    refine ⟨⟨by omega, by omega⟩, hib, ?_⟩
    intro he
    rw [← hq] at he
    rw [hcu] at he
    cases he
  · rintro ⟨⟨h₁, h₂⟩, hib, hns⟩
    refine ⟨by omega, hib, ?_⟩
    rcases hcu : cellUnset (GetPixelP m q) with _ | _
    · rfl
    · exact absurd (hq.1 hcu) hns

/-- C2: for every position and color, the scorer's cost is the summed
Euclidean distance to every in-bounds non-sentinel cell within Chebyshev
distance `spread` of the position, divided by the square of `max(n, 1)`
where `n` is the number of such cells; with `n = 0` the divisor is 1 and the
cost is the (empty) summed distance, 0.  The hypothesis says every canvas
cell is sentinel exactly when its channel 0 is sentinel, which ties the
source's channel-0 test to the spec's "non-sentinel" wording; it holds on
every reachable canvas. -/
theorem c2_scorer_cost (m : Mat) (p : Pos) (c : Color)
    (hwf : ∀ q : Pos,
      cellUnset (GetPixelP m q) = true ↔ GetPixelP m q = sentinelColor) :
    ColorPosDiff m p c =
      (∑ q ∈ specChebCells m p, ColorDiff c (GetPixelP m q)) /
        ((max (specChebCells m p).card 1 : ℕ) : ℝ) ^ 2 ∧
      ((specChebCells m p).card = 0 →
        ColorPosDiff m p c =
            (∑ q ∈ specChebCells m p, ColorDiff c (GetPixelP m q)) ∧
          ColorPosDiff m p c = 0) := by
  have hfin := countedCells_toFinset (p := p) hwf
  have hnd := countedCells_nodup m p
  have hsum : (∑ q ∈ specChebCells m p, ColorDiff c (GetPixelP m q)) =
      ((countedCells m p).map fun q => ColorDiff c (GetPixelP m q)).sum := by
    rw [← hfin, List.sum_toFinset _ hnd]
  have hcard : (specChebCells m p).card = (countedCells m p).length := by
    rw [← hfin, List.toFinset_card_of_nodup hnd]
  constructor
  · rw [hsum, hcard, pow_two]
    rfl
  · intro h0
    rw [hcard] at h0
    have hemp : countedCells m p = [] := List.eq_nil_of_length_eq_zero h0
    refine ⟨?_, ?_⟩
    · rw [hsum]
      simp [ColorPosDiff, hemp]
    · simp [ColorPosDiff, hemp]

theorem c2_witness :
    (∀ q : Pos, cellUnset (GetPixelP (allSentinelMat 3 3) q) = true ↔
        GetPixelP (allSentinelMat 3 3) q = sentinelColor) ∧
      ColorPosDiff (allSentinelMat 3 3) (1, 1) sentinelColor =
        (∑ q ∈ specChebCells (allSentinelMat 3 3) (1, 1),
            ColorDiff sentinelColor (GetPixelP (allSentinelMat 3 3) q)) /
          ((max (specChebCells (allSentinelMat 3 3) (1, 1)).card 1 : ℕ) : ℝ) ^ 2 := by
  have hwf : ∀ q : Pos, cellUnset (GetPixelP (allSentinelMat 3 3) q) = true ↔
      GetPixelP (allSentinelMat 3 3) q = sentinelColor := by
    intro q
    simp [allSentinelMat, GetPixelP, GetPixel, cellUnset, sentinelColor,
      invalidColor]
  exact ⟨hwf, (c2_scorer_cost (allSentinelMat 3 3) (1, 1) sentinelColor hwf).1⟩

/-- C4 counterexample: with a single seed at (10, 10) on the numeric-mode
1920×1080 canvas, `Init`'s frontier contains (10, 15) — Chebyshev distance 5
from the seed — while the spec's neighbor expansion does not, and the two
sets differ. -/
theorem c4_counterexample :
    ((10, 15) : Pos) ∈ initFrontier {((10 : ℤ), (10 : ℤ))} ∧
      ((10, 15) : Pos) ∉
        specSeedExpansion (allSentinelMat 1920 1080) {((10 : ℤ), (10 : ℤ))} ∧
      initFrontier {((10 : ℤ), (10 : ℤ))} ≠
        specSeedExpansion (allSentinelMat 1920 1080) {((10 : ℤ), (10 : ℤ))} := by
  refine ⟨by decide, by decide, by decide⟩

/-- C4 amended: before the first iteration the canvas is entirely sentinel,
and (in the numeric seed modes) the frontier is the union over the seeds of
a plus/cross of arm length `plusLength` (= 5): the positions sharing a
seed's row within horizontal distance 5, or its column within vertical
distance 5, with no bounds filtering — not the Chebyshev-distance-1
neighbor expansion. -/
theorem c4_init_canvas_and_frontier (w h x y : ℤ) (seeds : Finset Pos)
    (q : Pos) :
    (allSentinelMat w h).pix x y = sentinelColor ∧
      (q ∈ initFrontier seeds ↔
        ∃ s ∈ seeds, (q.2 = s.2 ∧ s.1 - 5 ≤ q.1 ∧ q.1 ≤ s.1 + 5) ∨
          (q.1 = s.1 ∧ s.2 - 5 ≤ q.2 ∧ q.2 ≤ s.2 + 5)) := by
  refine ⟨rfl, ?_⟩
  unfold initFrontier
  rw [Finset.mem_biUnion]
  refine exists_congr fun s => and_congr_right fun hs => ?_
  unfold plusShape plusLength
  rw [List.mem_toFinset, List.mem_append, List.mem_map, List.mem_map]
  constructor
  · rintro (⟨i, hi, h⟩ | ⟨j, hj, h⟩)
    · rw [List.mem_range] at hi
      have h₁ : s.1 - 5 + (i : ℤ) = q.1 := congrArg Prod.fst h
      have h₂0 := congrArg Prod.snd h
      have h₂ : s.2 = q.2 := h₂0
      left
      omega
    · rw [List.mem_range] at hj
      have h₁0 := congrArg Prod.fst h
      have h₁ : s.1 = q.1 := h₁0
      have h₂ : s.2 - 5 + (j : ℤ) = q.2 := congrArg Prod.snd h
      right
      omega
  · rintro (⟨h₀, h₁, h₂⟩ | ⟨h₀, h₁, h₂⟩)
    · left
      refine ⟨(q.1 - s.1 + 5).toNat, by rw [List.mem_range]; omega, ?_⟩
      rw [Prod.ext_iff]
      refine ⟨?_, ?_⟩
      · show s.1 - 5 + ((q.1 - s.1 + 5).toNat : ℤ) = q.1
        omega
      · show s.2 = q.2
        omega
    · right
      refine ⟨(q.2 - s.2 + 5).toNat, by rw [List.mem_range]; omega, ?_⟩
      rw [Prod.ext_iff]
      refine ⟨?_, ?_⟩
      · show s.1 = q.1
        omega
      · show s.2 - 5 + ((q.2 - s.2 + 5).toNat : ℤ) = q.2
        omega

theorem hueOf_gray (n : ℕ) : hueOf ⟨n, n, n⟩ = 0 := by
  unfold hueOf bgr2hsv
  simp [max_self, min_self]

/-- C3 counterexample: `std::sort` only guarantees a sorted permutation, not
stability.  The palette colors (4,4,4) and (8,8,8) have equal hue (both
gray, hue 0), so the swapped list satisfies the sort contract for the hue
comparator while reversing their shuffled relative order — the claimed
stability does not hold for the program's sort. -/
theorem c3_counterexample :
    (⟨4, 4, 4⟩ : Color) ∈ paletteColors ∧
      (⟨8, 8, 8⟩ : Color) ∈ paletteColors ∧
      SortContract [⟨4, 4, 4⟩, ⟨8, 8, 8⟩] [⟨8, 8, 8⟩, ⟨4, 4, 4⟩] ∧
      ¬StableByHue [⟨4, 4, 4⟩, ⟨8, 8, 8⟩] [⟨8, 8, 8⟩, ⟨4, 4, 4⟩] := by
  have h4 : hueOf ⟨4, 4, 4⟩ = 0 := hueOf_gray 4
  have h8 : hueOf ⟨8, 8, 8⟩ = 0 := hueOf_gray 8
  refine ⟨?_, ?_, ⟨?_, ?_⟩, ?_⟩
  · have he : (⟨4, 4, 4⟩ : Color) = mkPaletteColor 1 2 2 := by decide
    rw [he]
    exact mem_paletteColors.2 ⟨1, 2, 2, by omega, by omega, by omega, rfl⟩
  · have he : (⟨8, 8, 8⟩ : Color) = mkPaletteColor 2 4 4 := by decide
    rw [he]
    exact mem_paletteColors.2 ⟨2, 4, 4, by omega, by omega, by omega, rfl⟩
  · exact List.Perm.swap _ _ _
  · rw [List.pairwise_cons]
    refine ⟨?_, by simp⟩
    intro c hc
    rw [List.mem_singleton] at hc
    rw [hc]
    unfold hueLt
    rw [h4, h8]
    simp
  · intro hst
    have hf := hst ⟨4, 4, 4⟩
    rw [List.filter, List.filter, List.filter, List.filter, List.filter,
      List.filter] at hf
    rw [h4, h8] at hf
    simp at hf

/-- C3 amended: the palette ordering is a reorder of the shuffled sequence by
ascending hue — any output satisfying the sort contract of the hue
comparator is a permutation of its input that is nondecreasing in hue — but
the relative order of equal-hue colors is unspecified (`std::sort` is not
stable), not preserved from the shuffle. -/
theorem c3_hue_sorted_permutation (l l' : List Color)
    (hs : SortContract l l') :
    l'.Perm l ∧
      ∀ i j : Fin l'.length, (i : ℕ) ≤ (j : ℕ) →
        hueOf (l'.get i) ≤ hueOf (l'.get j) := by
  refine ⟨hs.1, ?_⟩
  intro i j hij
  rcases eq_or_lt_of_le hij with he | hlt
  · have he' : i = j := Fin.ext he
    rw [he']
  · have hp := List.pairwise_iff_get.1 hs.2 i j hlt
    unfold hueLt at hp
    exact not_lt.1 hp

theorem c3_witness :
    ([⟨8, 8, 8⟩, ⟨4, 4, 4⟩] : List Color).Perm [⟨4, 4, 4⟩, ⟨8, 8, 8⟩] ∧
      ∀ i j : Fin ([⟨8, 8, 8⟩, ⟨4, 4, 4⟩] : List Color).length,
        (i : ℕ) ≤ (j : ℕ) →
        hueOf (([⟨8, 8, 8⟩, ⟨4, 4, 4⟩] : List Color).get i) ≤
          hueOf (([⟨8, 8, 8⟩, ⟨4, 4, 4⟩] : List Color).get j) := by
  refine c3_hue_sorted_permutation _ _ ⟨List.Perm.swap _ _ _, ?_⟩
  rw [List.pairwise_cons]
  refine ⟨?_, by simp⟩
  intro c hc
  rw [List.mem_singleton] at hc
  rw [hc]
  unfold hueLt
  rw [hueOf_gray 8, hueOf_gray 4]
  simp

theorem foldlMin_isFirstMin (xs : List (ℝ × Pos)) :
    ∀ x : ℝ × Pos,
      IsFirstMin (x :: xs)
        (xs.foldl (fun a b => if b.1 < a.1 then b else a) x) := by
  induction xs with
  | nil =>
    intro x
    refine ⟨?_, [], [], rfl, by simp⟩
    intro z hz
    rw [List.mem_singleton] at hz
    simp [hz]
  | cons y t ih =>
    intro x
    rw [List.foldl_cons]
    show IsFirstMin (x :: y :: t)
      (t.foldl (fun a b => if b.1 < a.1 then b else a)
        (if y.1 < x.1 then y else x))
    by_cases hcmp : y.1 < x.1
    · rw [if_pos hcmp]
      obtain ⟨hmin, l₁, l₂, heq, hgt⟩ := ih y
      have hry : (t.foldl (fun a b => if b.1 < a.1 then b else a) y).1 ≤ y.1 :=
        hmin y (List.mem_cons_self _ _)
      refine ⟨?_, x :: l₁, l₂, by rw [List.cons_append, ← heq], ?_⟩
      · intro z hz
        rcases List.mem_cons.1 hz with rfl | hz'
        · exact le_of_lt (lt_of_le_of_lt hry hcmp)
        · exact hmin z hz'
      · intro z hz
        rcases List.mem_cons.1 hz with rfl | hz'
        · exact lt_of_le_of_lt hry hcmp
        · exact hgt z hz'
    · rw [if_neg hcmp]
      have hge : x.1 ≤ y.1 := not_lt.1 hcmp
      obtain ⟨hmin, l₁, l₂, heq, hgt⟩ := ih x
      have hmem : ∀ z ∈ x :: y :: t,
          (t.foldl (fun a b => if b.1 < a.1 then b else a) x).1 ≤ z.1 := by
        intro z hz
        rcases List.mem_cons.1 hz with rfl | hz'
        · exact hmin z (List.mem_cons_self _ _)
        · rcases List.mem_cons.1 hz' with rfl | hz''
          · exact le_trans (hmin x (List.mem_cons_self _ _)) hge
          · exact hmin z (List.mem_cons_of_mem _ hz'')
      cases l₁ with
      | nil =>
        rw [List.nil_append] at heq
        have hrx := List.cons_eq_cons.1 heq
        refine ⟨hmem, [], y :: t, ?_, by simp⟩
        rw [List.nil_append, ← hrx.1]
      | cons a l₁t =>
        rw [List.cons_append] at heq
        have hax := List.cons_eq_cons.1 heq
        refine ⟨hmem, x :: y :: l₁t, l₂, ?_, ?_⟩
        · rw [List.cons_append, List.cons_append, ← hax.2]
        · intro z hz
          have hxgt : (t.foldl (fun a b => if b.1 < a.1 then b else a) x).1 <
              x.1 := by
            have := hgt a (List.mem_cons_self _ _)
            rw [← hax.1] at this
            exact this
          rcases List.mem_cons.1 hz with rfl | hz'
          · exact hxgt
          · rcases List.mem_cons.1 hz' with rfl | hz''
            · exact lt_of_lt_of_le hxgt hge
            · exact hgt z (List.mem_cons_of_mem _ hz'')

/-- C7: for every non-empty frontier set and color, `FindBestPos` scores
every frontier position (in set order), applies one shuffle to the rated
pairs with the shared generator (returning its advanced state), and returns
the position of the first cost-minimal pair of the shuffled list; that
position is a member of the frontier and has minimal cost over it, so the
engine's membership assertion cannot fire. -/
theorem c7_find_best_pos {G : Type} (sR : ShuffleFn G (ℝ × Pos))
    (hR : ShufflePerm sR) (m : Mat) (next : Finset Pos) (c : Color) (g : G)
    (hne : next.Nonempty) :
    (∀ x ∈ ratedOf m next c, x.1 = ColorPosDiff m x.2 c) ∧
      (ratedOf m next c).map Prod.snd = sortedPositions next ∧
      (FindBestPos sR m next c g).2 = (sR (ratedOf m next c) g).2 ∧
      ∃ mel : ℝ × Pos,
        minElement (sR (ratedOf m next c) g).1 = some mel ∧
        (FindBestPos sR m next c g).1 = some mel.2 ∧
        IsFirstMin (sR (ratedOf m next c) g).1 mel ∧
        mel.2 ∈ next ∧
        mel.1 = ColorPosDiff m mel.2 c ∧
        ∀ q ∈ next, ColorPosDiff m mel.2 c ≤ ColorPosDiff m q c := by
  have hperm : ((sR (ratedOf m next c) g).1).Perm (ratedOf m next c) := hR _ _
  have hlen : (ratedOf m next c).length = next.card := by
    unfold ratedOf sortedPositions
    rw [List.length_map, Finset.length_sort]
  have hpos : 0 < ((sR (ratedOf m next c) g).1).length := by
    rw [hperm.length_eq, hlen]
    exact Finset.card_pos.2 hne
  refine ⟨?_, ?_, rfl, ?_⟩
  · intro x hx
    unfold ratedOf at hx
    rw [List.mem_map] at hx
    obtain ⟨p, hp, rfl⟩ := hx
    rfl
  · unfold ratedOf
    rw [List.map_map]
    exact List.map_id _
  · rcases hL : (sR (ratedOf m next c) g).1 with _ | ⟨z, zs⟩
    · rw [hL] at hpos
      simp at hpos
    · have hfm := foldlMin_isFirstMin zs z
      obtain ⟨hmin, l₁, l₂, heq, hgt⟩ := hfm
      have hmem : zs.foldl (fun a b => if b.1 < a.1 then b else a) z ∈
          z :: zs := by
        rw [heq]
        exact List.mem_append_right _ (List.mem_cons_self _ _)
      have hmemr : zs.foldl (fun a b => if b.1 < a.1 then b else a) z ∈
          ratedOf m next c := by
        rw [← hL] at hmem
        exact hperm.subset hmem
      have hmel : ∃ p ∈ sortedPositions next,
          (ColorPosDiff m p c, p) =
            zs.foldl (fun a b => if b.1 < a.1 then b else a) z := by
        unfold ratedOf at hmemr
        rw [List.mem_map] at hmemr
        exact hmemr
      obtain ⟨p, hp, hpe⟩ := hmel
      have hp2 : (zs.foldl (fun a b => if b.1 < a.1 then b else a) z).2 = p := by
        rw [← hpe]
      have hp1 : (zs.foldl (fun a b => if b.1 < a.1 then b else a) z).1 =
          ColorPosDiff m p c := by
        rw [← hpe]
      refine ⟨zs.foldl (fun a b => if b.1 < a.1 then b else a) z, ?_, ?_, ?_,
        ?_, ?_, ?_⟩
      · rfl
      · show ((minElement (sR (ratedOf m next c) g).1).map Prod.snd) = _
        rw [hL]
        rfl
      · exact ⟨hmin, l₁, l₂, heq, hgt⟩
      · rw [hp2]
        exact (Finset.mem_sort posLE).1 hp
      · rw [hp1, hp2]
      · intro q hq
        have hqr : (ColorPosDiff m q c, q) ∈ ratedOf m next c := by
          unfold ratedOf
          rw [List.mem_map]
          exact ⟨q, (Finset.mem_sort posLE).2 hq, rfl⟩
        have hqs : (ColorPosDiff m q c, q) ∈ z :: zs := by
          rw [← hL]
          exact hperm.symm.subset hqr
        have := hmin _ hqs
        rw [hp1] at this
        rw [hp2]
        exact this

theorem c7_witness :
    (({((0 : ℤ), (0 : ℤ))} : Finset Pos)).Nonempty ∧
      ∃ mel : ℝ × Pos,
        minElement
            (idShuffleR
              (ratedOf (allSentinelMat 1 1) {((0 : ℤ), (0 : ℤ))}
                sentinelColor) ()).1 = some mel ∧
        mel.2 ∈ ({((0 : ℤ), (0 : ℤ))} : Finset Pos) := by
  have hne : (({((0 : ℤ), (0 : ℤ))} : Finset Pos)).Nonempty :=
    Finset.singleton_nonempty _
  have hR : ShufflePerm idShuffleR := fun l g => List.Perm.refl _
  obtain ⟨-, -, -, mel, hm1, hm2, hm3, hm4, hm5, hm6⟩ :=
    c7_find_best_pos idShuffleR hR (allSentinelMat 1 1)
      {((0 : ℤ), (0 : ℤ))} sentinelColor () hne
  exact ⟨hne, mel, hm1, hm4⟩

theorem GetPixelP_SetPixel_self (m : Mat) (t : Pos) (c : Color) :
    GetPixelP (SetPixel m t.1 t.2 c) t = c := by
  unfold GetPixelP GetPixel SetPixel
  simp

theorem GetPixelP_SetPixel_ne {m : Mat} {t q : Pos} {c : Color} (h : q ≠ t) :
    GetPixelP (SetPixel m t.1 t.2 c) q = GetPixelP m q := by
  have hne : ¬(q.1 = t.1 ∧ q.2 = t.2) := by
    rintro ⟨h₁, h₂⟩
    exact h (Prod.ext_iff.2 ⟨h₁, h₂⟩)
  unfold GetPixelP GetPixel SetPixel
  simp [hne]

theorem mem_GetFreeNeighbours {m : Mat} {p q : Pos} :
    q ∈ GetFreeNeighbours m p ↔
      q ∈ blockList p ∧ inBoundsB m q = true ∧
        cellUnset (GetPixelP m q) = true := by
  unfold GetFreeNeighbours freeCell
  rw [List.mem_toFinset, List.mem_filter, Bool.and_eq_true]

theorem getLast?_mem {α : Type} {l : List α} {a : α} (h : l.getLast? = some a) :
    a ∈ l := by
  obtain ⟨l', rfl⟩ := List.getLast?_eq_some_iff.1 h
  simp

/-- Case analysis on one loop body execution with a non-empty palette: the
back color is popped; either `FindBestPos` returns a position which is
painted and swapped out of the frontier, or (only possible when the shuffle
contract is violated on an empty rated list) nothing is placed. -/
theorem stepOut_cases {G : Type} (sR : ShuffleFn G (ℝ × Pos)) (s : EState G)
    (hc : s.colors ≠ []) :
    ∃ color, s.colors.getLast? = some color ∧
      ((∃ pos,
          (FindBestPos sR s.image s.nextPositions color s.gen).1 = some pos ∧
            (stepOut sR s).2 = some (pos, color) ∧
            (stepOut sR s).1 = ⟨SetPixel s.image pos.1 pos.2 color,
              s.nextPositions.erase pos ∪
                GetFreeNeighbours (SetPixel s.image pos.1 pos.2 color) pos,
              s.colors.dropLast,
              (FindBestPos sR s.image s.nextPositions color s.gen).2⟩) ∨
        ((FindBestPos sR s.image s.nextPositions color s.gen).1 = none ∧
          (stepOut sR s).2 = none ∧
          (stepOut sR s).1 = ⟨s.image, s.nextPositions, s.colors.dropLast,
            (FindBestPos sR s.image s.nextPositions color s.gen).2⟩)) := by
  obtain ⟨color, hcl⟩ :=
    List.getLast?_isSome.2 hc |> Option.isSome_iff_exists.1
  refine ⟨color, hcl, ?_⟩
  rcases hfb : (FindBestPos sR s.image s.nextPositions color s.gen).1
    with _ | pos
  · right
    refine ⟨rfl, ?_, ?_⟩ <;>
      · unfold stepOut
        rw [hcl]
        simp only [hfb]
  · left
    refine ⟨pos, rfl, ?_, ?_⟩ <;>
      · unfold stepOut
        rw [hcl]
        simp only [hfb]

/-- Under the shuffle contract and a non-empty frontier, `FindBestPos`
returns a member of the frontier set. -/
theorem findBestPos_some {G : Type} (sR : ShuffleFn G (ℝ × Pos))
    (hR : ShufflePerm sR) (m : Mat) (next : Finset Pos) (c : Color) (g : G)
    (hne : next.Nonempty) :
    ∃ pos, (FindBestPos sR m next c g).1 = some pos ∧ pos ∈ next := by
  have hperm : ((sR (ratedOf m next c) g).1).Perm (ratedOf m next c) := hR _ _
  have hlen : (ratedOf m next c).length = next.card := by
    unfold ratedOf sortedPositions
    rw [List.length_map, Finset.length_sort]
  have hpos : 0 < ((sR (ratedOf m next c) g).1).length := by
    rw [hperm.length_eq, hlen]
    exact Finset.card_pos.2 hne
  rcases hL : (sR (ratedOf m next c) g).1 with _ | ⟨z, zs⟩
  · rw [hL] at hpos
    simp at hpos
  · have hmem : zs.foldl (fun a b => if b.1 < a.1 then b else a) z ∈
        z :: zs := by
      obtain ⟨-, l₁, l₂, heq, -⟩ := foldlMin_isFirstMin zs z
      rw [heq]
      exact List.mem_append_right _ (List.mem_cons_self _ _)
    have hmemr : zs.foldl (fun a b => if b.1 < a.1 then b else a) z ∈
        ratedOf m next c := by
      rw [← hL] at hmem
      exact hperm.subset hmem
    unfold ratedOf at hmemr
    rw [List.mem_map] at hmemr
    obtain ⟨p, hp, hpe⟩ := hmemr
    refine ⟨(zs.foldl (fun a b => if b.1 < a.1 then b else a) z).2, ?_, ?_⟩
    · show ((minElement (sR (ratedOf m next c) g).1).map Prod.snd) = _
      rw [hL]
      rfl
    · have hp2 : (zs.foldl (fun a b => if b.1 < a.1 then b else a) z).2 = p := by
        rw [← hpe]
      rw [hp2]
      exact (Finset.mem_sort posLE).1 hp

theorem frontierFree_stepOut {G : Type} (sR : ShuffleFn G (ℝ × Pos))
    (s : EState G) (hf : FrontierFree s) : FrontierFree (stepOut sR s).1 := by
  by_cases hc : s.colors = []
  · unfold stepOut
    rw [hc]
    exact hf
  · obtain ⟨color, hcl, hcase⟩ := stepOut_cases sR s hc
    rcases hcase with ⟨pos, hfb, hso2, hso1⟩ | ⟨hfb, hso2, hso1⟩
    · rw [hso1]
      intro q hq
      rcases Finset.mem_union.1 hq with hq' | hq'
      · obtain ⟨hne, hmem⟩ := Finset.mem_erase.1 hq'
        rw [GetPixelP_SetPixel_ne hne]
        exact hf q hmem
      · exact (mem_GetFreeNeighbours.1 hq').2.2
    · rw [hso1]
      intro q hq
      exact hf q hq

theorem colorsGood_stepOut {G : Type} (sR : ShuffleFn G (ℝ × Pos))
    (s : EState G) (hg : ColorsGood s) : ColorsGood (stepOut sR s).1 := by
  by_cases hc : s.colors = []
  · unfold stepOut
    rw [hc]
    exact hg
  · obtain ⟨color, hcl, hcase⟩ := stepOut_cases sR s hc
    rcases hcase with ⟨pos, hfb, hso2, hso1⟩ | ⟨hfb, hso2, hso1⟩ <;>
      rw [hso1] <;>
      exact fun c hcm => hg c (List.dropLast_subset _ hcm)

theorem cellsGood_stepOut {G : Type} (sR : ShuffleFn G (ℝ × Pos))
    (s : EState G) (hg : ColorsGood s) (hce : CellsGood s) :
    CellsGood (stepOut sR s).1 := by
  by_cases hc : s.colors = []
  · unfold stepOut
    rw [hc]
    exact hce
  · obtain ⟨color, hcl, hcase⟩ := stepOut_cases sR s hc
    rcases hcase with ⟨pos, hfb, hso2, hso1⟩ | ⟨hfb, hso2, hso1⟩
    · rw [hso1]
      intro p
      by_cases hp : p = pos
      · rw [hp]
        show GetPixelP (SetPixel s.image pos.1 pos.2 color) pos = _ ∨
          (GetPixelP (SetPixel s.image pos.1 pos.2 color) pos).b ≠ invalidColor
        rw [GetPixelP_SetPixel_self]
        right
        exact hg color (getLast?_mem hcl)
      · show GetPixelP (SetPixel s.image pos.1 pos.2 color) p = _ ∨
          (GetPixelP (SetPixel s.image pos.1 pos.2 color) p).b ≠ invalidColor
        rw [GetPixelP_SetPixel_ne hp]
        exact hce p
    · rw [hso1]
      intro p
      exact hce p

theorem engineInv_stepOut {G : Type} (sR : ShuffleFn G (ℝ × Pos))
    (s : EState G) (hi : EngineInv s) : EngineInv (stepOut sR s).1 :=
  ⟨frontierFree_stepOut sR s hi.1, colorsGood_stepOut sR s hi.2.1,
    cellsGood_stepOut sR s hi.2.1 hi.2.2⟩

theorem engineInv_reachable {G : Type} (sR : ShuffleFn G (ℝ × Pos))
    {s0 s : EState G} (h0 : EngineInv s0) (hr : Reachable sR s0 s) :
    EngineInv s := by
  induction hr with
  | refl => exact h0
  | tail hstep hst ih =>
    rw [hst.2]
    exact engineInv_stepOut sR _ ih

theorem frontierFree_reachable {G : Type} (sR : ShuffleFn G (ℝ × Pos))
    {s0 s : EState G} (h0 : FrontierFree s0) (hr : Reachable sR s0 s) :
    FrontierFree s := by
  induction hr with
  | refl => exact h0
  | tail hstep hst ih =>
    rw [hst.2]
    exact frontierFree_stepOut sR _ ih

/-- C5: from any starting state whose frontier positions are all unset (as
`Init` produces), every reachable state's frontier positions are still
unset on the canvas; every position `GetFreeNeighbours` produces for
insertion is in-bounds and unset; and when a placement happens with
non-sentinel colors, the chosen position is out of the frontier and
non-sentinel on the canvas of the very next state (removal and write
happen in the same step). -/
theorem c5_frontier_inv {G : Type} (sR : ShuffleFn G (ℝ × Pos))
    (s0 s : EState G) (h0 : FrontierFree s0) (hr : Reachable sR s0 s) :
    FrontierFree s ∧
      (∀ (m : Mat) (p q : Pos), q ∈ GetFreeNeighbours m p →
        inBoundsB m q = true ∧ cellUnset (GetPixelP m q) = true) ∧
      (∀ t : EState G, ColorsGood t → ∀ pos color,
        (stepOut sR t).2 = some (pos, color) →
        pos ∉ (stepOut sR t).1.nextPositions ∧
          cellUnset (GetPixelP (stepOut sR t).1.image pos) = false) := by
  refine ⟨frontierFree_reachable sR h0 hr, ?_, ?_⟩
  · intro m p q hq
    exact ⟨(mem_GetFreeNeighbours.1 hq).2.1, (mem_GetFreeNeighbours.1 hq).2.2⟩
  · intro t hcg pos color hso
    by_cases hc : t.colors = []
    · unfold stepOut at hso
      rw [hc] at hso
      cases hso
    · obtain ⟨color', hcl, hcase⟩ := stepOut_cases sR t hc
      rcases hcase with ⟨pos', hfb, hso2, hso1⟩ | ⟨hfb, hso2, hso1⟩
      · have he : (pos', color') = (pos, color) :=
          Option.some.inj (hso2.symm.trans hso)
        have hpe : pos' = pos := congrArg Prod.fst he
        have hce : color' = color := congrArg Prod.snd he
        subst hpe
        subst hce
        rw [hso1]
        have hbne : color'.b ≠ invalidColor := hcg color' (getLast?_mem hcl)
        have himg : GetPixelP (SetPixel t.image pos'.1 pos'.2 color') pos' =
            color' := GetPixelP_SetPixel_self _ _ _
        constructor
        · intro hmem
          rcases Finset.mem_union.1 hmem with hm | hm
          · exact (Finset.mem_erase.1 hm).1 rfl
          · have hcu := (mem_GetFreeNeighbours.1 hm).2.2
            rw [himg] at hcu
            unfold cellUnset at hcu
            rw [beq_iff_eq] at hcu
            exact hbne hcu
        · show cellUnset
            (GetPixelP (SetPixel t.image pos'.1 pos'.2 color') pos') = false
          rw [himg]
          unfold cellUnset
          simp [hbne]
      · rw [hso2] at hso
        cases hso

theorem c5_witness :
    FrontierFree (⟨allSentinelMat 1 1, {((0 : ℤ), (0 : ℤ))}, [], ()⟩ :
        EState Unit) ∧
      ∀ (m : Mat) (p q : Pos), q ∈ GetFreeNeighbours m p →
        inBoundsB m q = true ∧ cellUnset (GetPixelP m q) = true := by
  have h0 : FrontierFree (⟨allSentinelMat 1 1, {((0 : ℤ), (0 : ℤ))}, [], ()⟩ :
      EState Unit) := fun q hq => rfl
  obtain ⟨h₁, h₂, -⟩ :=
    c5_frontier_inv idShuffleR _ _ h0 Relation.ReflTransGen.refl
  exact ⟨h₁, h₂⟩

theorem run_not_running {G : Type} (sR : ShuffleFn G (ℝ × Pos)) :
    ∀ (n : ℕ) (s : EState G), s.colors.length = n →
      (run sR s).1.colors = [] ∨ (run sR s).1.nextPositions = ∅ := by
  intro n
  induction n using Nat.strong_induction_on with
  | _ n ih =>
    intro s hn
    rw [run_unfold]
    by_cases h : s.colors ≠ [] ∧ s.nextPositions.Nonempty
    · rw [if_pos h]
      have hsl := stepOut_colors_length sR s h.1
      exact ih _ (by omega) _ rfl
    · rw [if_neg h]
      push_neg at h
      by_cases hcol : s.colors = []
      · exact Or.inl hcol
      · exact Or.inr (Finset.not_nonempty_iff_eq_empty.1 (h hcol))

theorem run_trace_length {G : Type} (sR : ShuffleFn G (ℝ × Pos))
    (hR : ShufflePerm sR) :
    ∀ (n : ℕ) (s : EState G), s.colors.length = n →
      (run sR s).2.length + (run sR s).1.colors.length = s.colors.length := by
  intro n
  induction n using Nat.strong_induction_on with
  | _ n ih =>
    intro s hn
    rw [run_unfold]
    by_cases h : s.colors ≠ [] ∧ s.nextPositions.Nonempty
    · rw [if_pos h]
      have hsl := stepOut_colors_length sR s h.1
      have hihx := ih _ (by omega) (stepOut sR s).1 rfl
      obtain ⟨color, hcl, hcase⟩ := stepOut_cases sR s h.1
      rcases hcase with ⟨pos, hfb, hso2, hso1⟩ | ⟨hfb, hso2, hso1⟩
      · rw [List.length_append, hso2]
        simp only [Option.toList_some, List.length_singleton]
        omega
      · obtain ⟨pos, hfb', hmem⟩ :=
          findBestPos_some sR hR s.image s.nextPositions color s.gen h.2
        rw [hfb] at hfb'
        cases hfb'
    · rw [if_neg h]
      simp

/-- C8: the growth loop always terminates (the model `run` is a total
function defined by recursion on the palette size); the final state
satisfies exactly the termination condition — palette empty or frontier
empty, with frontier exhaustion a normal completion; each running iteration
consumes exactly one color, and under the shuffle contract the number of
placements plus the remaining palette size equals the starting palette
size. -/
theorem c8_termination {G : Type} (sR : ShuffleFn G (ℝ × Pos))
    (hR : ShufflePerm sR) (s : EState G) :
    ((run sR s).1.colors = [] ∨ (run sR s).1.nextPositions = ∅) ∧
      (run sR s).2.length + (run sR s).1.colors.length = s.colors.length ∧
      (∀ t : EState G, Running t →
        (stepOut sR t).1.colors.length + 1 = t.colors.length) := by
  refine ⟨run_not_running sR _ s rfl, run_trace_length sR hR _ s rfl, ?_⟩
  intro t ht
  exact stepOut_colors_length sR t ht.1

theorem c8_witness :
    ((run idShuffleR (⟨allSentinelMat 1 1, {((0 : ℤ), (0 : ℤ))},
          [sentinelColor], ()⟩ : EState Unit)).1.colors = [] ∨
        (run idShuffleR (⟨allSentinelMat 1 1, {((0 : ℤ), (0 : ℤ))},
          [sentinelColor], ()⟩ : EState Unit)).1.nextPositions = ∅) ∧
      (run idShuffleR (⟨allSentinelMat 1 1, {((0 : ℤ), (0 : ℤ))},
          [sentinelColor], ()⟩ : EState Unit)).2.length +
        (run idShuffleR (⟨allSentinelMat 1 1, {((0 : ℤ), (0 : ℤ))},
          [sentinelColor], ()⟩ : EState Unit)).1.colors.length = 1 := by
  have hR : ShufflePerm idShuffleR := fun l g => List.Perm.refl _
  obtain ⟨h₁, h₂, -⟩ := c8_termination idShuffleR hR
    (⟨allSentinelMat 1 1, {((0 : ℤ), (0 : ℤ))}, [sentinelColor], ()⟩ :
      EState Unit)
  exact ⟨h₁, h₂⟩

/-- C1: the run is a deterministic function of the shuffle/sort behaviour,
the canvas, the initial frontier, and the generator state seeded from the
fixed constant — in particular it does not depend on the unused
`random_device` value, so two runs with the same inputs produce the same
placement sequence; the generator enters the loop exactly as left by the
single palette shuffle, and each loop iteration advances it exactly by the
one shuffle inside the best-position search. -/
theorem c1_determinism {G : Type} (sC : ShuffleFn G Color) (sortFn : SortFn)
    (sR : ShuffleFn G (ℝ × Pos)) (m : Mat) (next : Finset Pos) (g1 : G) :
    (∀ rd₁ rd₂ : ℕ,
        mainRun sC sortFn sR m next rd₁ g1 =
          mainRun sC sortFn sR m next rd₂ g1) ∧
      (initState m next (sortFn (sC paletteColors g1).1)
          (sC paletteColors g1).2).gen = (sC paletteColors g1).2 ∧
      (∀ (s : EState G) (h : s.colors ≠ []),
        (stepOut sR s).1.gen =
          (sR (ratedOf s.image s.nextPositions (s.colors.getLast h))
            s.gen).2) := by
  refine ⟨fun rd₁ rd₂ => rfl, rfl, ?_⟩
  intro s h
  obtain ⟨color, hcl, hcase⟩ := stepOut_cases sR s h
  have hce : color = s.colors.getLast h := by
    have h2 := List.getLast?_eq_getLast s.colors h
    rw [h2] at hcl
    exact (Option.some.inj hcl).symm
  rcases hcase with ⟨pos, hfb, hso2, hso1⟩ | ⟨hfb, hso2, hso1⟩ <;>
    · rw [hso1]
      show (FindBestPos sR s.image s.nextPositions color s.gen).2 = _
      rw [hce]
      rfl

theorem c1_witness :
    mainRun idShuffleC (fun l => l) idShuffleR (allSentinelMat 1 1) ∅ 0 () =
        mainRun idShuffleC (fun l => l) idShuffleR (allSentinelMat 1 1) ∅
          1 () ∧
      (stepOut idShuffleR (⟨allSentinelMat 1 1, ∅, [sentinelColor], ()⟩ :
            EState Unit)).1.gen =
        (idShuffleR (ratedOf (allSentinelMat 1 1) ∅
            (([sentinelColor] : List Color).getLast (by simp))) ()).2 := by
  obtain ⟨h₁, h₂, h₃⟩ := c1_determinism idShuffleC (fun l => l) idShuffleR
    (allSentinelMat 1 1) ∅ ()
  exact ⟨h₁ 0 1, h₃ _ (by simp)⟩

theorem cellsColorsGood_reachable {G : Type} (sR : ShuffleFn G (ℝ × Pos))
    {s0 s : EState G} (hcg : ColorsGood s0) (hce : CellsGood s0)
    (hr : Reachable sR s0 s) : ColorsGood s ∧ CellsGood s := by
  induction hr with
  | refl => exact ⟨hcg, hce⟩
  | tail hstep hst ih =>
    rw [hst.2]
    exact ⟨colorsGood_stepOut sR _ ih.1, cellsGood_stepOut sR _ ih.1 ih.2⟩

/-- C10: the implementation decides "unset" by channel 0 (blue) alone —
the test holds on any color with blue 0 regardless of the other channels
and fails exactly when blue differs from 0; frontier-neighbor enumeration
filters by exactly this test; every palette color has blue `colMult`·b
with b ≥ 1 (hence ≥ 4) and is never classified unset; therefore, on every
state reachable from a well-formed start (all cells sentinel-or-placed,
all palette colors non-zero blue), the test coincides with equality to the
sentinel color. -/
theorem c10_blue_channel_sentinel {G : Type} (sR : ShuffleFn G (ℝ × Pos))
    (s0 s : EState G) (hcg : ColorsGood s0) (hce : CellsGood s0)
    (hr : Reachable sR s0 s) :
    (∀ g r : ℕ, cellUnset ⟨0, g, r⟩ = true) ∧
      (∀ c : Color, cellUnset c = false ↔ c.b ≠ 0) ∧
      (∀ c ∈ paletteColors, ∃ bv, 1 ≤ bv ∧ bv < 64 ∧ c.b = colMult * bv ∧
        4 ≤ c.b ∧ cellUnset c = false) ∧
      (∀ (m : Mat) (p q : Pos), q ∈ GetFreeNeighbours m p ↔
        q ∈ blockList p ∧ inBoundsB m q = true ∧
          cellUnset (GetPixelP m q) = true) ∧
      (∀ p : Pos, cellUnset (GetPixelP s.image p) = true ↔
        GetPixelP s.image p = sentinelColor) := by
  refine ⟨fun g r => rfl, ?_, ?_, ?_, ?_⟩
  · intro c
    unfold cellUnset invalidColor
    simp
  · intro c hc
    obtain ⟨b, g, r, hb, hg, hr', rfl⟩ := mem_paletteColors.1 hc
    obtain ⟨e₁, e₂, e₃⟩ :=
      mkPaletteColor_channels (b := b) (g := g) (r := r) (by omega) (by omega)
        (by omega)
    refine ⟨b, hb.1, hb.2, ?_, ?_, ?_⟩
    · rw [e₁]
      unfold colMult
      rfl
    · rw [e₁]
      omega
    · unfold cellUnset invalidColor
      rw [e₁]
      simp
      omega
  · intro m p q
    exact mem_GetFreeNeighbours
  · have hgood := (cellsColorsGood_reachable sR hcg hce hr).2
    intro p
    constructor
    · intro hcu
      rcases hgood p with hs | hb
      · exact hs
      · unfold cellUnset at hcu
        rw [beq_iff_eq] at hcu
        exact absurd hcu hb
    · intro hs
      rw [hs]
      rfl

theorem c10_witness :
    cellUnset ⟨0, 7, 9⟩ = true ∧
      (cellUnset ⟨0, 7, 9⟩ = false ↔ (⟨0, 7, 9⟩ : Color).b ≠ 0) ∧
      (∀ p : Pos,
        cellUnset (GetPixelP
            ((⟨allSentinelMat 1 1, ∅, [], ()⟩ : EState Unit)).image p) =
          true ↔
        GetPixelP ((⟨allSentinelMat 1 1, ∅, [], ()⟩ : EState Unit)).image p =
          sentinelColor) := by
  have hcg : ColorsGood (⟨allSentinelMat 1 1, ∅, [], ()⟩ : EState Unit) := by
    intro c hc
    cases hc
  have hce : CellsGood (⟨allSentinelMat 1 1, ∅, [], ()⟩ : EState Unit) := by
    intro p
    left
    rfl
  obtain ⟨h₁, h₂, -, -, h₅⟩ := c10_blue_channel_sentinel idShuffleR _ _
    hcg hce Relation.ReflTransGen.refl
  exact ⟨h₁ 7 9, h₂ _, h₅⟩

theorem reverse_eq_getLast_cons {α : Type} (l : List α) (hne : l ≠ []) (a : α)
    (ha : l.getLast? = some a) : l.reverse = a :: l.dropLast.reverse := by
  have h2 := List.getLast?_eq_getLast l hne
  rw [h2] at ha
  have hae := Option.some.inj ha
  conv_lhs => rw [← List.dropLast_append_getLast hne]
  rw [List.reverse_append, hae]
  simp

theorem run_trace_colors_sublist {G : Type} (sR : ShuffleFn G (ℝ × Pos)) :
    ∀ (n : ℕ) (s : EState G), s.colors.length = n →
      ((run sR s).2.map Prod.snd).Sublist s.colors.reverse := by
  intro n
  induction n using Nat.strong_induction_on with
  | _ n ih =>
    intro s hn
    rw [run_unfold]
    by_cases h : s.colors ≠ [] ∧ s.nextPositions.Nonempty
    · rw [if_pos h]
      have hsl := stepOut_colors_length sR s h.1
      have hihx := ih _ (by omega) (stepOut sR s).1 rfl
      obtain ⟨color, hcl, hcase⟩ := stepOut_cases sR s h.1
      have hrev := reverse_eq_getLast_cons s.colors h.1 color hcl
      rcases hcase with ⟨pos, hfb, hso2, hso1⟩ | ⟨hfb, hso2, hso1⟩
      · have hsoCols : (stepOut sR s).1.colors = s.colors.dropLast := by
          rw [hso1]
        rw [hso2, hrev]
        simp only [Option.toList_some, List.singleton_append, List.map_cons]
        refine List.Sublist.cons₂ _ ?_
        rw [hsoCols] at hihx
        exact hihx
      · have hsoCols : (stepOut sR s).1.colors = s.colors.dropLast := by
          rw [hso1]
        rw [hso2, hrev]
        simp only [Option.toList_none, List.nil_append]
        refine List.Sublist.cons _ ?_
        rw [hsoCols] at hihx
        exact hihx
    · rw [if_neg h]
      simp

theorem run_trace_positions {G : Type} (sR : ShuffleFn G (ℝ × Pos))
    (hR : ShufflePerm sR) :
    ∀ (n : ℕ) (s : EState G), s.colors.length = n →
      FrontierFree s → ColorsGood s →
      ((run sR s).2.map Prod.fst).Nodup ∧
        ∀ pc ∈ (run sR s).2, cellUnset (GetPixelP s.image pc.1) = true := by
  intro n
  induction n using Nat.strong_induction_on with
  | _ n ih =>
    intro s hn hff hcg
    rw [run_unfold]
    by_cases h : s.colors ≠ [] ∧ s.nextPositions.Nonempty
    · rw [if_pos h]
      have hsl := stepOut_colors_length sR s h.1
      obtain ⟨color, hcl, hcase⟩ := stepOut_cases sR s h.1
      rcases hcase with ⟨pos, hfb, hso2, hso1⟩ | ⟨hfb, hso2, hso1⟩
      · have hff' : FrontierFree (stepOut sR s).1 :=
          frontierFree_stepOut sR s hff
        have hcg' : ColorsGood (stepOut sR s).1 :=
          colorsGood_stepOut sR s hcg
        have hihx := ih _ (by omega) (stepOut sR s).1 rfl hff' hcg'
        obtain ⟨pos'', hfb'', hmem⟩ :=
          findBestPos_some sR hR s.image s.nextPositions color s.gen h.2
        have hpe : pos'' = pos := by
          rw [hfb] at hfb''
          exact (Option.some.inj hfb'').symm
        subst hpe
        have hsoImg : (stepOut sR s).1.image =
            SetPixel s.image pos''.1 pos''.2 color := by
          rw [hso1]
        have hposfree : cellUnset (GetPixelP s.image pos'') = true :=
          hff pos'' hmem
        have hbne : color.b ≠ invalidColor := hcg color (getLast?_mem hcl)
        have hnotfree' :
            cellUnset (GetPixelP (stepOut sR s).1.image pos'') = false := by
          rw [hsoImg, GetPixelP_SetPixel_self]
          unfold cellUnset
          simp [hbne]
        have hmono : ∀ q : Pos,
            cellUnset (GetPixelP (stepOut sR s).1.image q) = true →
              cellUnset (GetPixelP s.image q) = true := by
          intro q hq
          by_cases hqp : q = pos''
          · rw [hqp] at hq
            rw [hnotfree'] at hq
            cases hq
          · rw [hsoImg, GetPixelP_SetPixel_ne hqp] at hq
            exact hq
        rw [hso2]
        simp only [Option.toList_some, List.singleton_append, List.map_cons]
        constructor
        · rw [List.nodup_cons]
          refine ⟨?_, hihx.1⟩
          intro hmemf
          rw [List.mem_map] at hmemf
          obtain ⟨pc, hpc, hpce⟩ := hmemf
          have hfree := hihx.2 pc hpc
          rw [hpce] at hfree
          rw [hfree] at hnotfree'
          cases hnotfree'
        · intro pc hpc
          rcases List.mem_cons.1 hpc with rfl | hpc'
          · exact hposfree
          · exact hmono _ (hihx.2 pc hpc')
      · obtain ⟨pos, hfb', -⟩ :=
          findBestPos_some sR hR s.image s.nextPositions color s.gen h.2
        rw [hfb] at hfb'
        cases hfb'
    · rw [if_neg h]
      simp

/-- C6: over a whole run from a well-formed state (duplicate-free palette of
non-sentinel colors, frontier all-unset, cells sentinel-or-placed): no
color is placed twice, no position is painted twice, and once a cell is
non-sentinel its value never changes in any later reachable state. -/
theorem c6_no_repeats {G : Type} (sR : ShuffleFn G (ℝ × Pos))
    (hR : ShufflePerm sR) (s : EState G) (hnd : s.colors.Nodup)
    (hff : FrontierFree s) (hcg : ColorsGood s) (hce : CellsGood s) :
    ((run sR s).2.map Prod.snd).Nodup ∧
      ((run sR s).2.map Prod.fst).Nodup ∧
      (∀ s' : EState G, Reachable sR s s' → ∀ p : Pos,
        GetPixelP s.image p ≠ sentinelColor →
        GetPixelP s'.image p = GetPixelP s.image p) := by
  refine ⟨?_, ?_, ?_⟩
  · exact (run_trace_colors_sublist sR _ s rfl).nodup (List.nodup_reverse.2 hnd)
  · exact (run_trace_positions sR hR _ s rfl hff hcg).1
  · intro s' hr p hns
    induction hr with
    | refl => rfl
    | tail hreach hst ih =>
      rename_i b c
      have hffb : FrontierFree b := frontierFree_reachable sR hff hreach
      have hgoodb := cellsColorsGood_reachable sR hcg hce hreach
      have hvb : GetPixelP b.image p = GetPixelP s.image p := ih
      have hnsb : GetPixelP b.image p ≠ sentinelColor := by
        rw [hvb]
        exact hns
      have hpb : cellUnset (GetPixelP b.image p) = false := by
        rcases hgoodb.2 p with hsent | hbne
        · exact absurd hsent hnsb
        · unfold cellUnset
          simp [hbne]
      rw [hst.2]
      have hrun := hst.1
      obtain ⟨color, hcl, hcase⟩ := stepOut_cases sR b hrun.1
      rcases hcase with ⟨pos, hfb, hso2, hso1⟩ | ⟨hfb, hso2, hso1⟩
      · obtain ⟨pos'', hfb'', hmem⟩ :=
          findBestPos_some sR hR b.image b.nextPositions color b.gen hrun.2
        have hpe : pos'' = pos := by
          rw [hfb] at hfb''
          exact (Option.some.inj hfb'').symm
        subst hpe
        have hsoImg : (stepOut sR b).1.image =
            SetPixel b.image pos''.1 pos''.2 color := by
          rw [hso1]
        have hpne : p ≠ pos'' := by
          intro he
          have := hffb pos'' hmem
          rw [← he] at this
          rw [this] at hpb
          cases hpb
        rw [hsoImg, GetPixelP_SetPixel_ne hpne]
        exact hvb
      · have hsoImg : (stepOut sR b).1.image = b.image := by
          rw [hso1]
        rw [hsoImg]
        exact hvb

theorem c6_witness :
    ((run idShuffleR (⟨allSentinelMat 1 1, ∅, [], ()⟩ :
        EState Unit)).2.map Prod.snd).Nodup ∧
      ((run idShuffleR (⟨allSentinelMat 1 1, ∅, [], ()⟩ :
          EState Unit)).2.map Prod.fst).Nodup := by
  have hR : ShufflePerm idShuffleR := fun l g => List.Perm.refl _
  have hnd : (([] : List Color)).Nodup := List.nodup_nil
  have hff : FrontierFree (⟨allSentinelMat 1 1, ∅, [], ()⟩ : EState Unit) :=
    fun q hq => absurd hq (Finset.not_mem_empty q)
  have hcg : ColorsGood (⟨allSentinelMat 1 1, ∅, [], ()⟩ : EState Unit) :=
    fun c hc => absurd hc (List.not_mem_nil c)
  have hce : CellsGood (⟨allSentinelMat 1 1, ∅, [], ()⟩ : EState Unit) :=
    fun p => Or.inl rfl
  obtain ⟨h₁, h₂, -⟩ := c6_no_repeats idShuffleR hR _ hnd hff hcg hce
  exact ⟨h₁, h₂⟩
